import Mathlib

/-!
# Verification of the opencode-godot-lsp bridge

A shallow embedding of the core of `godot-lsp-bridge.js` (the variant in
`src/unnamed/part_001`, whose frame interceptor the spec describes).

The byte stream is modelled as `List Nat` (one `Nat` per byte).  The
JavaScript code decodes the accumulated `Buffer` with UTF-8 and performs
its regex / `indexOf` searches on the decoded string while slicing the
underlying byte buffer at the resulting indices; for the header region all
patterns and header bytes are ASCII, where string indices and byte offsets
coincide, so the byte-level model is exact there (well-formed frames below
require ASCII headers).  Bodies are opaque byte sequences; the sentinel
rewrite replaces an ASCII substring, which on UTF-8 encoded bodies acts
exactly as the byte-level replacement modelled here (UTF-8 is
self-synchronizing, so an ASCII pattern never straddles a multi-byte
character).
-/

set_option autoImplicit false

namespace Bridge

/-- Bytes of a (pure-ASCII) string literal, as they appear in the source. -/
def toBytes (s : String) : List Nat := s.data.map Char.toNat

/-- The literal of the length header, from the regex Content-Length: (\d+)\r\n. -/
def CLlit : List Nat := toBytes "Content-Length: "

/-- Carriage return + line feed. -/
def CRLF : List Nat := toBytes "\r\n"

/-- The header/body delimiter searched by indexOf in the source. -/
def DELIM : List Nat := toBytes "\r\n\r\n"

/-- The sentinel substring tested with body.includes in the source. -/
def TARGET : List Nat := toBytes "\"languageId\":\"plaintext\""

/-- The replacement substring from the source's global regex replace. -/
def REPL : List Nat := toBytes "\"languageId\":\"gdscript\""

/-- ASCII decimal digit test, as in the regex class \d. -/
def isDigit (c : Nat) : Bool := 48 ≤ c && c ≤ 57

/-- Longest prefix of decimal digits (the greedy \d+ of the regex). -/
def takeDigits : List Nat → List Nat
  | [] => []
  | c :: cs => if isDigit c then c :: takeDigits cs else []

/-- Decimal value of a digit string, as computed by parseInt(s, 10). -/
def parseDigits (l : List Nat) : Nat := l.foldl (fun a c => a * 10 + (c - 48)) 0

/-- Decimal digit bytes of a natural number (what the template literal
interpolation of newBody.length produces), via a fuel-driven division loop. -/
def natDigitsAux : Nat → Nat → List Nat
  | 0, _ => []
  | fuel + 1, n => if n = 0 then [] else natDigitsAux fuel (n / 10) ++ [n % 10 + 48]

/-- Decimal representation of a natural number as ASCII bytes. -/
def natDigits (n : Nat) : List Nat := if n = 0 then [48] else natDigitsAux (n + 1) n

/-- Does the regex Content-Length: (\d+)\r\n match at the head of the list?
If so, return the parsed capture group.  A match needs the literal, a
nonempty maximal digit run, then CRLF (backtracking inside the digit run
cannot help, because the byte after a shorter run is a digit, not CR). -/
def clMatchAt (l : List Nat) : Option Nat :=
  if CLlit.isPrefixOf l then
    if takeDigits (l.drop 16) ≠ [] ∧
        CRLF.isPrefixOf ((l.drop 16).drop (takeDigits (l.drop 16)).length) then
      some (parseDigits (takeDigits (l.drop 16)))
    else none
  else none

/-- Leftmost match of the regex Content-Length: (\d+)\r\n, returning the
parsed length, i.e. parseInt(contentLengthMatch[1], 10) of the source. -/
def findCL : List Nat → Option Nat
  | [] => none
  | c :: cs =>
    match clMatchAt (c :: cs) with
    | some n => some n
    | none => findCL cs

/-- First index of a pattern (str.indexOf of the source). -/
def firstIdxOf (pat : List Nat) : List Nat → Option Nat
  | [] => none
  | c :: cs => if pat.isPrefixOf (c :: cs) then some 0 else (firstIdxOf pat cs).map (· + 1)

/-- body.includes(pat) of the source. -/
def containsB (pat l : List Nat) : Bool := (firstIdxOf pat l).isSome

/-- One step of the global string replace body.replace(pat-regex-g, repl):
scan left to right, replace each non-overlapping occurrence and continue
after it.  Fuel-driven so that the definition is structural. -/
def replaceAllF (pat repl : List Nat) : Nat → List Nat → List Nat
  | _, [] => []
  | 0, l => l
  | fuel + 1, c :: cs =>
    if pat ≠ [] ∧ pat.isPrefixOf (c :: cs) then
      repl ++ replaceAllF pat repl fuel (List.drop pat.length (c :: cs))
    else
      c :: replaceAllF pat repl fuel cs

/-- Global replace of every occurrence of pat by repl. -/
def replaceAllB (pat repl l : List Nat) : List Nat := replaceAllF pat repl l.length l

/-- The rewritten body: body.replace(languageId-plaintext-regex-g, gdscript). -/
def rewriteBody (body : List Nat) : List Nat := replaceAllB TARGET REPL body

/-- Does the header-rewrite regex Content-Length: \d+ (no CRLF required)
match at the head of the list?  It needs the literal and at least one digit. -/
def clLooseHead (l : List Nat) : Bool :=
  CLlit.isPrefixOf l &&
    (match l.drop 16 with
     | d :: _ => isDigit d
     | [] => false)

/-- First position at which the loose regex Content-Length: \d+ matches. -/
def firstLoosePos : List Nat → Option Nat
  | [] => none
  | c :: cs => if clLooseHead (c :: cs) then some 0 else (firstLoosePos cs).map (· + 1)

/-- headers.replace(Content-Length-digits-regex, Content-Length-n): replace
the first occurrence of the literal plus its greedy digit run with the
literal followed by the decimal digits of n. -/
def replaceFirstCL (n : Nat) : List Nat → List Nat
  | [] => []
  | c :: cs =>
    if clLooseHead (c :: cs) then
      CLlit ++ natDigits n ++ List.drop (16 + (takeDigits (List.drop 16 (c :: cs))).length) (c :: cs)
    else
      c :: replaceFirstCL n cs

/-- One whole pass of the interceptor's while-true loop over the buffer
(the transform callback of createLspInterceptor), fuel-driven.  Returns the
concatenation of the pushed chunks together with the remaining buffer.
Each loop iteration mirrors the source exactly: find the leftmost
Content-Length match, find the first blank-line delimiter, stop if the
declared body is not yet fully buffered, otherwise slice out the body,
rewrite-and-reframe it when it contains the sentinel or pass the original
bytes through unchanged, and drop the consumed bytes. -/
def pBF : Nat → List Nat → List Nat × List Nat
  | 0, b => ([], b)
  | fuel + 1, b =>
    match findCL b with
    | none => ([], b)
    | some n =>
      match firstIdxOf DELIM b with
      | none => ([], b)
      | some he =>
        if b.length < he + 4 + n then ([], b)
        else
          let body := (b.drop (he + 4)).take n
          let out :=
            if containsB TARGET body then
              replaceFirstCL (rewriteBody body).length (b.take he) ++ DELIM ++ rewriteBody body
            else
              b.take (he + 4 + n)
          let r := pBF fuel (b.drop (he + 4 + n))
          (out ++ r.1, r.2)

/-- The interceptor's processing of its accumulated buffer: every loop
iteration consumes at least the four delimiter bytes, so the buffer length
is always enough fuel. -/
def processBuffer (b : List Nat) : List Nat × List Nat := pBF b.length b

/-- Feeding a sequence of chunks to the interceptor: each incoming chunk is
appended to the carried buffer and a full processing pass is run; the
emitted bytes of all passes are concatenated. -/
def runChunks : List Nat → List (List Nat) → List Nat
  | _, [] => []
  | buf, c :: cs =>
    (processBuffer (buf ++ c)).1 ++ runChunks (processBuffer (buf ++ c)).2 cs

/-- The interceptor applied to a chunked input stream, starting from the
empty buffer (buffer = Buffer.alloc(0) in createLspInterceptor). -/
def intercept (chunks : List (List Nat)) : List Nat := runChunks [] chunks

/-- A protocol frame: header text (without the final blank line) and body. -/
structure Frame where
  header : List Nat
  body : List Nat

/-- The frame's bytes on the wire. -/
def encodeFrame (f : Frame) : List Nat := f.header ++ DELIM ++ f.body

/-- A well-formed frame: the header is ASCII, the leftmost Content-Length
match of header-plus-delimiter parses to the body's byte length, and the
first blank-line delimiter of header-plus-delimiter is the real one. -/
def WF (f : Frame) : Prop :=
  (∀ c ∈ f.header, c < 128) ∧
  findCL (f.header ++ DELIM) = some f.body.length ∧
  firstIdxOf DELIM (f.header ++ DELIM) = some f.header.length

/-- What the interceptor emits for one complete well-formed frame: the
rewritten reframing when the body holds the sentinel, otherwise the
original bytes. -/
def emitFrame (f : Frame) : List Nat :=
  if containsB TARGET f.body then
    replaceFirstCL (rewriteBody f.body).length f.header ++ DELIM ++ rewriteBody f.body
  else
    encodeFrame f

/-! ## Basic facts about the patterns and list helpers -/

theorem CLlit_length : CLlit.length = 16 := rfl

theorem CRLF_length : CRLF.length = 2 := rfl

theorem DELIM_length : DELIM.length = 4 := rfl

theorem take_append_of_le {α : Type} {a b : List α} {s : Nat} (h : s ≤ a.length) :
    (a ++ b).take s = a.take s := by
  rw [List.take_append_eq_append_take, Nat.sub_eq_zero_of_le h, List.take_zero,
    List.append_nil]

theorem drop_append_of_le {α : Type} {a b : List α} {s : Nat} (h : s ≤ a.length) :
    (a ++ b).drop s = a.drop s ++ b := by
  rw [List.drop_append_eq_append_drop, Nat.sub_eq_zero_of_le h, List.drop_zero]

theorem seg_append {α : Type} {a : List α} (b : List α) {s k : Nat} (h : s + k ≤ a.length) :
    ((a ++ b).drop s).take k = (a.drop s).take k := by
  rw [drop_append_of_le (le_trans (Nat.le_add_right s k) h),
    List.take_append_eq_append_take]
  have hk : k ≤ (a.drop s).length := by
    rw [List.length_drop]; omega
  rw [Nat.sub_eq_zero_of_le hk, List.take_zero, List.append_nil]

theorem isPrefixOf_append_of {p a : List Nat} (b : List Nat)
    (h : p.isPrefixOf a = true) : p.isPrefixOf (a ++ b) = true := by
  rw [List.isPrefixOf_iff_prefix] at h ⊢
  exact h.trans (List.prefix_append a b)

theorem isPrefixOf_append_self (p t : List Nat) : p.isPrefixOf (p ++ t) = true := by
  rw [List.isPrefixOf_iff_prefix]
  exact List.prefix_append p t

theorem isPrefixOf_restrict {p a b : List Nat} (h : p.isPrefixOf (a ++ b) = true)
    (hl : p.length ≤ a.length) : p.isPrefixOf a = true := by
  rw [List.isPrefixOf_iff_prefix, List.prefix_iff_eq_take] at h ⊢
  rw [take_append_of_le hl] at h
  exact h

theorem eq_append_drop_of_isPrefixOf {p l : List Nat} (h : p.isPrefixOf l = true) :
    l = p ++ l.drop p.length := by
  rw [List.isPrefixOf_iff_prefix, List.prefix_iff_eq_take] at h
  conv_lhs => rw [← List.take_append_drop p.length l, ← h]

theorem isPrefixOf_length_le {p l : List Nat} (h : p.isPrefixOf l = true) :
    p.length ≤ l.length := by
  rw [List.isPrefixOf_iff_prefix] at h
  exact h.length_le

/-- The byte of a stream at an index, if present. -/
def byteAt (l : List Nat) (i : Nat) : Option Nat := (l.drop i).head?

theorem head?_append_of_ne_nil {α : Type} {l : List α} (l' : List α) (h : l ≠ []) :
    (l ++ l').head? = l.head? := by
  cases l with
  | nil => exact absurd rfl h
  | cons c cs => rfl

theorem byteAt_append_left {a : List Nat} (b : List Nat) {i : Nat} (h : i < a.length) :
    byteAt (a ++ b) i = byteAt a i := by
  unfold byteAt
  rw [drop_append_of_le (Nat.le_of_lt h)]
  refine head?_append_of_ne_nil b ?_
  intro hnil
  have := congrArg List.length hnil
  rw [List.length_drop] at this
  simp at this
  omega

theorem byteAt_append_right {a : List Nat} (b : List Nat) {i : Nat} (h : a.length ≤ i) :
    byteAt (a ++ b) i = byteAt b (i - a.length) := by
  unfold byteAt
  rw [List.drop_append_eq_append_drop]
  have : a.drop i = [] := by
    rw [List.drop_eq_nil_iff]
    omega
  rw [this, List.nil_append]

theorem byteAt_append_self (a v : List Nat) : byteAt (a ++ v) a.length = v.head? := by
  unfold byteAt
  rw [List.drop_left]

theorem byteAt_mem {l : List Nat} {i x : Nat} (h : byteAt l i = some x) : x ∈ l := by
  unfold byteAt at h
  refine List.mem_of_mem_drop (n := i) ?_
  cases hd : l.drop i with
  | nil => rw [hd] at h; cases h
  | cons c cs =>
    rw [hd] at h
    simp only [List.head?_cons, Option.some.injEq] at h
    rw [← h]
    exact List.mem_cons_self c cs

/-! ## Digit-run lemmas -/

theorem takeDigits_digits {l : List Nat} : ∀ d ∈ takeDigits l, isDigit d = true := by
  induction l with
  | nil => intro d hd; simp [takeDigits] at hd
  | cons c cs ih =>
    intro d hd
    rw [takeDigits] at hd
    by_cases hc : isDigit c
    · rw [if_pos hc] at hd
      rcases List.mem_cons.mp hd with h | h
      · rw [h]; exact hc
      · exact ih d h
    · rw [if_neg hc] at hd
      simp at hd

theorem takeDigits_append_drop (l : List Nat) :
    takeDigits l ++ l.drop (takeDigits l).length = l := by
  induction l with
  | nil => rfl
  | cons c cs ih =>
    rw [takeDigits]
    by_cases hc : isDigit c
    · rw [if_pos hc]
      simp only [List.length_cons, List.cons_append, List.drop_succ_cons]
      rw [ih]
    · rw [if_neg hc]
      rfl

theorem takeDigits_of_digits_stop {ds : List Nat} (r : List Nat)
    (hds : ∀ d ∈ ds, isDigit d = true) {x : Nat} (hx : isDigit x = false) :
    takeDigits (ds ++ x :: r) = ds := by
  induction ds with
  | nil =>
    rw [List.nil_append, takeDigits, if_neg (by rw [hx]; intro h; cases h)]
  | cons c cs ih =>
    rw [List.cons_append, takeDigits,
      if_pos (hds c (List.mem_cons_self c cs)),
      ih (fun d hd => hds d (List.mem_cons_of_mem c hd))]

theorem takeDigits_append_of_lt {l : List Nat} (b : List Nat)
    (h : (takeDigits l).length < l.length) : takeDigits (l ++ b) = takeDigits l := by
  induction l with
  | nil => simp [takeDigits] at h
  | cons c cs ih =>
    rw [List.cons_append, takeDigits]
    by_cases hc : isDigit c
    · rw [if_pos hc]
      rw [takeDigits, if_pos hc]
      rw [takeDigits, if_pos hc] at h
      simp only [List.length_cons, Nat.add_lt_add_iff_right] at h
      rw [ih h]
    · rw [if_neg hc, takeDigits, if_neg hc]

theorem isDigit_ne_cr {d : Nat} (h : isDigit d = true) : d ≠ 13 := by
  unfold isDigit at h
  simp only [Bool.and_eq_true, decide_eq_true_eq] at h
  omega

theorem isDigit_ne_C {d : Nat} (h : isDigit d = true) : d ≠ 67 := by
  unfold isDigit at h
  simp only [Bool.and_eq_true, decide_eq_true_eq] at h
  omega

/-! ## Decimal printing and parsing -/

theorem natDigitsAux_digits : ∀ (fuel n : Nat), ∀ d ∈ natDigitsAux fuel n, isDigit d = true := by
  intro fuel
  induction fuel with
  | zero => intro n d hd; simp [natDigitsAux] at hd
  | succ fuel ih =>
    intro n d hd
    rw [natDigitsAux] at hd
    by_cases hn : n = 0
    · rw [if_pos hn] at hd; simp at hd
    · rw [if_neg hn] at hd
      rcases List.mem_append.mp hd with h | h
      · exact ih _ d h
      · simp at h
        rw [h]
        unfold isDigit
        have := Nat.mod_lt n (show 0 < 10 by omega)
        simp only [Bool.and_eq_true, decide_eq_true_eq]
        omega

theorem natDigits_digits (n : Nat) : ∀ d ∈ natDigits n, isDigit d = true := by
  intro d hd
  unfold natDigits at hd
  by_cases hn : n = 0
  · rw [if_pos hn] at hd
    simp at hd
    rw [hd]
    decide
  · rw [if_neg hn] at hd
    exact natDigitsAux_digits _ _ d hd

theorem natDigits_ne_nil (n : Nat) : natDigits n ≠ [] := by
  unfold natDigits
  by_cases hn : n = 0
  · rw [if_pos hn]; intro h; cases h
  · rw [if_neg hn]
    rw [natDigitsAux, if_neg hn]
    intro h
    have := congrArg List.length h
    simp at this

theorem parse_natDigitsAux : ∀ (fuel n : Nat), n < fuel → ∀ a : Nat,
    List.foldl (fun a c => a * 10 + (c - 48)) a (natDigitsAux fuel n) =
      a * 10 ^ (natDigitsAux fuel n).length + n := by
  intro fuel
  induction fuel with
  | zero => intro n h; omega
  | succ fuel ih =>
    intro n h a
    rw [natDigitsAux]
    by_cases hn : n = 0
    · rw [if_pos hn]
      simp [hn]
    · rw [if_neg hn]
      rw [List.foldl_append]
      have hlt : n / 10 < fuel := by
        have h1 : n / 10 < n := Nat.div_lt_self (Nat.pos_of_ne_zero hn) (by omega)
        omega
      rw [ih (n / 10) hlt a]
      simp only [List.foldl_cons, List.foldl_nil, List.length_append,
        List.length_cons, List.length_nil]
      have hmod : n % 10 + 48 - 48 = n % 10 := by omega
      rw [hmod, pow_succ]
      have hdm : 10 * (n / 10) + n % 10 = n := Nat.div_add_mod n 10
      ring_nf
      omega

theorem parseDigits_natDigits (n : Nat) : parseDigits (natDigits n) = n := by
  unfold parseDigits natDigits
  by_cases hn : n = 0
  · rw [if_pos hn]
    simp [hn]
  · rw [if_neg hn]
    rw [parse_natDigitsAux (n + 1) n (Nat.lt_succ_self n) 0]
    simp

/-! ## Characterizing the Content-Length regex match -/

theorem clMatchAt_eq_some_iff {l : List Nat} {n : Nat} :
    clMatchAt l = some n ↔
      ∃ ds rest, l = CLlit ++ (ds ++ (CRLF ++ rest)) ∧ ds ≠ [] ∧
        (∀ d ∈ ds, isDigit d = true) ∧ parseDigits ds = n := by
  constructor
  · intro h
    unfold clMatchAt at h
    by_cases hp : CLlit.isPrefixOf l = true
    · rw [if_pos hp] at h
      by_cases hc : takeDigits (l.drop 16) ≠ [] ∧
          CRLF.isPrefixOf ((l.drop 16).drop (takeDigits (l.drop 16)).length) = true
      · rw [if_pos hc] at h
        refine ⟨takeDigits (l.drop 16),
          ((l.drop 16).drop (takeDigits (l.drop 16)).length).drop 2, ?_, hc.1,
          takeDigits_digits, by injection h⟩
        have h1 : l = CLlit ++ l.drop 16 := by
          have := eq_append_drop_of_isPrefixOf hp
          rw [CLlit_length] at this
          exact this
        have h2 : l.drop 16 =
            takeDigits (l.drop 16) ++ (l.drop 16).drop (takeDigits (l.drop 16)).length :=
          (takeDigits_append_drop (l.drop 16)).symm
        have h3 : (l.drop 16).drop (takeDigits (l.drop 16)).length =
            CRLF ++ ((l.drop 16).drop (takeDigits (l.drop 16)).length).drop 2 := by
          have := eq_append_drop_of_isPrefixOf hc.2
          rw [CRLF_length] at this
          exact this
        conv_lhs => rw [h1, h2, h3]
      · rw [if_neg hc] at h
        cases h
    · rw [if_neg hp] at h
      cases h
  · rintro ⟨ds, rest, rfl, hdne, hdig, hval⟩
    have hdrop : (CLlit ++ (ds ++ (CRLF ++ rest))).drop 16 = ds ++ (CRLF ++ rest) := by
      have : (CLlit ++ (ds ++ (CRLF ++ rest))).drop CLlit.length = ds ++ (CRLF ++ rest) :=
        List.drop_left CLlit (ds ++ (CRLF ++ rest))
      rw [CLlit_length] at this
      exact this
    have hcr : ds ++ (CRLF ++ rest) = ds ++ 13 :: 10 :: rest := rfl
    have htd : takeDigits (ds ++ (CRLF ++ rest)) = ds := by
      rw [hcr]
      exact takeDigits_of_digits_stop (10 :: rest) hdig (by decide)
    unfold clMatchAt
    rw [if_pos (isPrefixOf_append_self CLlit (ds ++ (CRLF ++ rest)))]
    rw [hdrop, htd]
    rw [if_pos ⟨hdne, by rw [List.drop_left]; exact isPrefixOf_append_self CRLF rest⟩]
    rw [hval]

theorem clMatchAt_append {l : List Nat} (b : List Nat) {n : Nat}
    (h : clMatchAt l = some n) : clMatchAt (l ++ b) = some n := by
  rw [clMatchAt_eq_some_iff] at h ⊢
  obtain ⟨ds, rest, rfl, h1, h2, h3⟩ := h
  exact ⟨ds, rest ++ b, by simp [List.append_assoc], h1, h2, h3⟩

theorem findCL_some_split {l : List Nat} {n : Nat} (h : findCL l = some n) :
    ∃ u v, l = u ++ v ∧ clMatchAt v = some n := by
  induction l with
  | nil => simp [findCL] at h
  | cons c cs ih =>
    cases hm : clMatchAt (c :: cs) with
    | some m =>
      simp only [findCL, hm] at h
      exact ⟨[], c :: cs, rfl, by rw [hm, h]⟩
    | none =>
      simp only [findCL, hm] at h
      obtain ⟨u, v, hcs, hv⟩ := ih h
      exact ⟨c :: u, v, by rw [List.cons_append, hcs], hv⟩

/-- byteAt facts about the literal, needed for the leftmost-match stability
argument: no inner byte of the literal is the letter C. -/
theorem byteAt_CLlit_ne_C {i : Nat} (h1 : 1 ≤ i) (h2 : i < 16) :
    byteAt CLlit i ≠ some 67 := by
  interval_cases i <;> decide

/-- If the head of the extended buffer matches while the unextended buffer
did not, but a complete match exists deeper in the unextended buffer, we get
a contradiction: the deeper match byte (the letter C) would have to sit
inside the head match's literal or digit run. -/
theorem clMatchAt_cons_append_none {c : Nat} {cs b : List Nat} {n : Nat}
    (h0 : clMatchAt (c :: cs) = none) (h1 : findCL cs = some n) :
    clMatchAt ((c :: cs) ++ b) = none := by
  cases hm : clMatchAt ((c :: cs) ++ b) with
  | none => rfl
  | some m =>
    exfalso
    rw [clMatchAt_eq_some_iff] at hm
    obtain ⟨ds, rest, heq, hdne, hdig, hval⟩ := hm
    by_cases hlen : 16 + ds.length + 2 ≤ (c :: cs).length
    · -- the head match is complete inside c :: cs, contradicting h0
      have hassoc : (c :: cs) ++ b = ((CLlit ++ ds) ++ CRLF) ++ rest := by
        rw [heq]; simp only [List.append_assoc]
      have hP : ((CLlit ++ ds) ++ CRLF).length = 16 + ds.length + 2 := by
        simp only [List.length_append, CLlit_length, CRLF_length]
      have htake : c :: cs = ((c :: cs) ++ b).take (c :: cs).length := by
        rw [List.take_left]
      rw [hassoc, List.take_append_eq_append_take,
        List.take_of_length_le (by omega)] at htake
      have hmatch : clMatchAt (c :: cs) = some (parseDigits ds) := by
        rw [clMatchAt_eq_some_iff]
        refine ⟨ds, rest.take ((c :: cs).length - ((CLlit ++ ds) ++ CRLF).length), ?_,
          hdne, hdig, rfl⟩
        conv_lhs => rw [htake]
        simp only [List.append_assoc]
      rw [hmatch] at h0
      cases h0
    · -- the head match spans into b; locate the complete match inside cs
      obtain ⟨u, v, hcs, hv⟩ := findCL_some_split h1
      rw [clMatchAt_eq_some_iff] at hv
      obtain ⟨ds2, rest2, hveq, hdne2, _, _⟩ := hv
      have hvlen : 19 ≤ v.length := by
        rw [hveq]
        simp only [List.length_append, CLlit_length, CRLF_length]
        have : 0 < ds2.length := List.length_pos.mpr hdne2
        omega
      have ha : c :: cs = (c :: u) ++ v := by rw [hcs]; rfl
      have hi : (c :: u).length = u.length + 1 := by simp
      have hLa : (c :: cs).length = u.length + 1 + v.length := by
        rw [ha, List.length_append, hi]
      -- the byte at position u.length + 1 is the letter C (start of the inner match)
      have hbyte : byteAt (c :: cs) (u.length + 1) = some 67 := by
        rw [ha, ← hi, byteAt_append_self]
        rw [hveq]
        rfl
      have hibound : u.length + 1 < (c :: cs).length := by omega
      have hbyte2 : byteAt ((c :: cs) ++ b) (u.length + 1) = some 67 := by
        rw [byteAt_append_left b hibound, hbyte]
      -- on the other side the same byte lies in the literal or digit region
      have hassoc : (c :: cs) ++ b = (CLlit ++ ds) ++ (CRLF ++ rest) := by
        rw [heq]; simp only [List.append_assoc]
      have hireg : u.length + 1 < (CLlit ++ ds).length := by
        rw [List.length_append, CLlit_length]
        omega
      rw [hassoc, byteAt_append_left (CRLF ++ rest) hireg] at hbyte2
      by_cases hsplit : u.length + 1 < 16
      · rw [byteAt_append_left ds (by rw [CLlit_length]; omega)] at hbyte2
        exact byteAt_CLlit_ne_C (by omega) hsplit hbyte2
      · rw [byteAt_append_right ds (by rw [CLlit_length]; omega)] at hbyte2
        have h67 : (67 : Nat) ∈ ds := byteAt_mem hbyte2
        have := hdig 67 h67
        simp [isDigit] at this

/-- Appending bytes to a buffer whose leftmost Content-Length match is
complete does not change that leftmost match. -/
theorem findCL_append {a : List Nat} (b : List Nat) {n : Nat}
    (h : findCL a = some n) : findCL (a ++ b) = some n := by
  induction a with
  | nil => simp [findCL] at h
  | cons c cs ih =>
    cases hm : clMatchAt (c :: cs) with
    | some m =>
      simp only [findCL, hm] at h
      have hm2 := clMatchAt_append b hm
      rw [List.cons_append] at hm2 ⊢
      simp only [findCL, hm2]
      exact h
    | none =>
      simp only [findCL, hm] at h
      have hblock := clMatchAt_cons_append_none (b := b) hm h
      rw [List.cons_append] at hblock ⊢
      simp only [findCL, hblock]
      exact ih h

/-- Building findCL from a witness position and minimality. -/
theorem findCL_eq_some_of {l : List Nat} {p n : Nat}
    (hp : clMatchAt (l.drop p) = some n)
    (hmin : ∀ q, q < p → clMatchAt (l.drop q) = none) :
    findCL l = some n := by
  induction l generalizing p with
  | nil =>
    rw [List.drop_nil] at hp
    have : clMatchAt ([] : List Nat) = none := rfl
    rw [this] at hp
    cases hp
  | cons c cs ih =>
    cases p with
    | zero =>
      rw [List.drop_zero] at hp
      simp only [findCL, hp]
    | succ q =>
      have h0 : clMatchAt (c :: cs) = none := by
        have := hmin 0 (Nat.succ_pos q)
        rw [List.drop_zero] at this
        exact this
      simp only [findCL, h0]
      refine ih (p := q) ?_ ?_
      · rw [← List.drop_succ_cons (a := c) (n := q)]
        exact hp
      · intro r hr
        have := hmin (r + 1) (by omega)
        rw [List.drop_succ_cons] at this
        exact this

/-! ## firstIdxOf lemmas -/

theorem firstIdxOf_spec {pat l : List Nat} {i : Nat} (h : firstIdxOf pat l = some i) :
    pat.isPrefixOf (l.drop i) = true ∧ i + pat.length ≤ l.length := by
  induction l generalizing i with
  | nil => simp [firstIdxOf] at h
  | cons c cs ih =>
    rw [firstIdxOf] at h
    by_cases hp : pat.isPrefixOf (c :: cs) = true
    · rw [if_pos hp] at h
      injection h with h
      subst h
      exact ⟨hp, by have := isPrefixOf_length_le hp; simpa using this⟩
    · rw [if_neg hp] at h
      cases hj : firstIdxOf pat cs with
      | none => rw [hj] at h; cases h
      | some j =>
        rw [hj] at h
        injection h with h
        subst h
        obtain ⟨h1, h2⟩ := ih hj
        refine ⟨by rw [List.drop_succ_cons]; exact h1, by simp only [List.length_cons]; omega⟩

theorem firstIdxOf_append {pat a : List Nat} (b : List Nat) {i : Nat}
    (h : firstIdxOf pat a = some i) : firstIdxOf pat (a ++ b) = some i := by
  induction a generalizing i with
  | nil => simp [firstIdxOf] at h
  | cons c cs ih =>
    rw [firstIdxOf] at h
    rw [List.cons_append, firstIdxOf]
    by_cases hp : pat.isPrefixOf (c :: cs) = true
    · rw [if_pos hp] at h
      have : pat.isPrefixOf (c :: (cs ++ b)) = true := by
        rw [← List.cons_append]
        exact isPrefixOf_append_of b hp
      rw [if_pos this]
      exact h
    · rw [if_neg hp] at h
      cases hj : firstIdxOf pat cs with
      | none => rw [hj] at h; cases h
      | some j =>
        rw [hj] at h
        have hlen : pat.length ≤ (c :: cs).length := by
          have := (firstIdxOf_spec hj).2
          simp
          omega
        have hp2 : ¬ pat.isPrefixOf (c :: (cs ++ b)) = true := by
          intro hc
          rw [← List.cons_append] at hc
          exact hp (isPrefixOf_restrict hc hlen)
        rw [if_neg hp2, ih hj]
        exact h

/-! ## processBuffer unfolding equations -/

theorem pBF_nil (fuel : Nat) : pBF fuel [] = ([], []) := by
  cases fuel with
  | zero => rfl
  | succ f => rfl

theorem pBF_succ (fuel : Nat) (b : List Nat) :
    pBF (fuel + 1) b =
      match findCL b with
      | none => ([], b)
      | some n =>
        match firstIdxOf DELIM b with
        | none => ([], b)
        | some he =>
          if b.length < he + 4 + n then ([], b)
          else
            ((if containsB TARGET ((b.drop (he + 4)).take n) then
                replaceFirstCL (rewriteBody ((b.drop (he + 4)).take n)).length (b.take he) ++
                  DELIM ++ rewriteBody ((b.drop (he + 4)).take n)
              else b.take (he + 4 + n)) ++ (pBF fuel (b.drop (he + 4 + n))).1,
             (pBF fuel (b.drop (he + 4 + n))).2) := rfl

theorem pBF_fuel_irrel : ∀ (f1 : Nat) {b : List Nat} (f2 : Nat),
    b.length ≤ f1 → b.length ≤ f2 → pBF f1 b = pBF f2 b := by
  intro f1
  induction f1 with
  | zero =>
    intro b f2 h1 _
    have hb : b = [] := List.eq_nil_of_length_eq_zero (Nat.le_zero.mp h1)
    subst hb
    rw [pBF_nil, pBF_nil]
  | succ f ih =>
    intro b f2 h1 h2
    cases b with
    | nil => rw [pBF_nil, pBF_nil]
    | cons x xs =>
      cases f2 with
      | zero => simp at h2
      | succ g =>
        rw [pBF_succ, pBF_succ]
        cases hcl : findCL (x :: xs) with
        | none => rfl
        | some n =>
          cases hde : firstIdxOf DELIM (x :: xs) with
          | none => rfl
          | some he =>
            dsimp only
            by_cases hshort : (x :: xs).length < he + 4 + n
            · rw [if_pos hshort, if_pos hshort]
            · rw [if_neg hshort]
              have hrest : ((x :: xs).drop (he + 4 + n)).length ≤ f ∧
                  ((x :: xs).drop (he + 4 + n)).length ≤ g := by
                rw [List.length_drop]
                simp only [List.length_cons] at h1 h2 ⊢
                omega
              rw [ih g hrest.1 hrest.2, if_neg hshort]

theorem processBuffer_stuck_noCL {b : List Nat} (h : findCL b = none) :
    processBuffer b = ([], b) := by
  unfold processBuffer
  cases b with
  | nil => rfl
  | cons x xs =>
    rw [show (x :: xs).length = xs.length + 1 from rfl, pBF_succ, h]

theorem processBuffer_stuck_noDelim {b : List Nat} {n : Nat} (h1 : findCL b = some n)
    (h2 : firstIdxOf DELIM b = none) : processBuffer b = ([], b) := by
  unfold processBuffer
  cases b with
  | nil => rfl
  | cons x xs =>
    rw [show (x :: xs).length = xs.length + 1 from rfl, pBF_succ, h1, h2]

theorem processBuffer_stuck_short {b : List Nat} {n he : Nat} (h1 : findCL b = some n)
    (h2 : firstIdxOf DELIM b = some he) (h3 : b.length < he + 4 + n) :
    processBuffer b = ([], b) := by
  unfold processBuffer
  cases b with
  | nil => rfl
  | cons x xs =>
    rw [show (x :: xs).length = xs.length + 1 from rfl, pBF_succ, h1, h2]
    dsimp only
    rw [if_pos h3]

theorem processBuffer_step {b : List Nat} {n he : Nat} (h1 : findCL b = some n)
    (h2 : firstIdxOf DELIM b = some he) (h3 : ¬ b.length < he + 4 + n) :
    processBuffer b =
      ((if containsB TARGET ((b.drop (he + 4)).take n) then
          replaceFirstCL (rewriteBody ((b.drop (he + 4)).take n)).length (b.take he) ++
            DELIM ++ rewriteBody ((b.drop (he + 4)).take n)
        else b.take (he + 4 + n)) ++ (processBuffer (b.drop (he + 4 + n))).1,
       (processBuffer (b.drop (he + 4 + n))).2) := by
  cases b with
  | nil => rw [show findCL [] = none from rfl] at h1; cases h1
  | cons x xs =>
    have hunf : processBuffer (x :: xs) = pBF (xs.length + 1) (x :: xs) := rfl
    rw [hunf, pBF_succ, h1, h2]
    dsimp only
    rw [if_neg h3]
    have hrest : ((x :: xs).drop (he + 4 + n)).length ≤ xs.length := by
      rw [List.length_drop]
      simp only [List.length_cons]
      simp only [List.length_cons] at h3
      omega
    rw [pBF_fuel_irrel xs.length ((x :: xs).drop (he + 4 + n)).length hrest (Nat.le_refl _)]
    rfl

/-- The residue of a processing pass is stuck: feeding it again with no new
bytes emits nothing. -/
theorem processBuffer_residual (b : List Nat) :
    processBuffer (processBuffer b).2 = ([], (processBuffer b).2) := by
  have H : ∀ (fuel : Nat) (b : List Nat), b.length ≤ fuel →
      processBuffer (pBF fuel b).2 = ([], (pBF fuel b).2) := by
    intro fuel
    induction fuel with
    | zero =>
      intro b h
      have hb : b = [] := List.eq_nil_of_length_eq_zero (Nat.le_zero.mp h)
      subst hb
      rw [pBF_nil]
      rfl
    | succ f ih =>
      intro b h
      cases hcl : findCL b with
      | none =>
        have : pBF (f + 1) b = ([], b) := by
          cases b with
          | nil => exact pBF_nil _
          | cons x xs => rw [pBF_succ, hcl]
        rw [this]
        exact processBuffer_stuck_noCL hcl
      | some n =>
        cases hde : firstIdxOf DELIM b with
        | none =>
          have : pBF (f + 1) b = ([], b) := by
            cases b with
            | nil => exact pBF_nil _
            | cons x xs => rw [pBF_succ, hcl, hde]
          rw [this]
          exact processBuffer_stuck_noDelim hcl hde
        | some he =>
          by_cases hshort : b.length < he + 4 + n
          · have : pBF (f + 1) b = ([], b) := by
              cases b with
              | nil => rw [show findCL [] = none from rfl] at hcl; cases hcl
              | cons x xs =>
                rw [pBF_succ, hcl, hde]
                dsimp only
                rw [if_pos hshort]
            rw [this]
            exact processBuffer_stuck_short hcl hde hshort
          · have hb : b ≠ [] := by
              intro hnil
              subst hnil
              rw [show findCL [] = none from rfl] at hcl
              cases hcl
            obtain ⟨x, xs, rfl⟩ := List.exists_cons_of_ne_nil hb
            rw [pBF_succ, hcl, hde]
            dsimp only
            rw [if_neg hshort]
            have hrest : ((x :: xs).drop (he + 4 + n)).length ≤ f := by
              rw [List.length_drop]
              simp only [List.length_cons] at h ⊢
              omega
            exact ih _ hrest
  exact H b.length b (Nat.le_refl _)

/-! ## Composition: processing is a function of the concatenated bytes -/

theorem processBuffer_append_of_stuck {a : List Nat} (b : List Nat)
    (h : processBuffer a = ([], a)) :
    processBuffer (a ++ b) =
      ((processBuffer a).1 ++ (processBuffer ((processBuffer a).2 ++ b)).1,
       (processBuffer ((processBuffer a).2 ++ b)).2) := by
  rw [h]
  dsimp only
  rw [List.nil_append]

theorem processBuffer_append (a b : List Nat) :
    processBuffer (a ++ b) =
      ((processBuffer a).1 ++ (processBuffer ((processBuffer a).2 ++ b)).1,
       (processBuffer ((processBuffer a).2 ++ b)).2) := by
  have H : ∀ (N : Nat) (a b : List Nat), a.length ≤ N →
      processBuffer (a ++ b) =
        ((processBuffer a).1 ++ (processBuffer ((processBuffer a).2 ++ b)).1,
         (processBuffer ((processBuffer a).2 ++ b)).2) := by
    intro N
    induction N with
    | zero =>
      intro a b h
      have ha : a = [] := List.eq_nil_of_length_eq_zero (Nat.le_zero.mp h)
      subst ha
      exact processBuffer_append_of_stuck b rfl
    | succ N ihN =>
      intro a b h
      cases hcl : findCL a with
      | none => exact processBuffer_append_of_stuck b (processBuffer_stuck_noCL hcl)
      | some n =>
        cases hde : firstIdxOf DELIM a with
        | none => exact processBuffer_append_of_stuck b (processBuffer_stuck_noDelim hcl hde)
        | some he =>
          by_cases hshort : a.length < he + 4 + n
          · exact processBuffer_append_of_stuck b (processBuffer_stuck_short hcl hde hshort)
          · have hcl2 : findCL (a ++ b) = some n := findCL_append b hcl
            have hde2 : firstIdxOf DELIM (a ++ b) = some he := firstIdxOf_append b hde
            have hlen : he + 4 + n ≤ a.length := Nat.le_of_not_lt hshort
            have hshort2 : ¬ (a ++ b).length < he + 4 + n := by
              rw [List.length_append]
              omega
            rw [processBuffer_step hcl2 hde2 hshort2, processBuffer_step hcl hde hshort]
            have hbody : ((a ++ b).drop (he + 4)).take n = (a.drop (he + 4)).take n :=
              seg_append b (by omega)
            have htk : (a ++ b).take he = a.take he := take_append_of_le (by omega)
            have htk2 : (a ++ b).take (he + 4 + n) = a.take (he + 4 + n) :=
              take_append_of_le hlen
            have hdr : (a ++ b).drop (he + 4 + n) = a.drop (he + 4 + n) ++ b :=
              drop_append_of_le hlen
            rw [hbody, htk, htk2, hdr]
            have hrlen : (a.drop (he + 4 + n)).length ≤ N := by
              rw [List.length_drop]
              omega
            rw [ihN (a.drop (he + 4 + n)) b hrlen]
            simp only [List.append_assoc]
  exact H a.length a b (Nat.le_refl _)

theorem runChunks_eq_processBuffer (cs : List (List Nat)) :
    ∀ buf : List Nat, processBuffer buf = ([], buf) →
      runChunks buf cs = (processBuffer (buf ++ cs.flatten)).1 := by
  induction cs with
  | nil =>
    intro buf h
    rw [runChunks, List.flatten_nil, List.append_nil, h]
  | cons c cs ih =>
    intro buf h
    rw [runChunks]
    rw [ih _ (processBuffer_residual (buf ++ c))]
    rw [List.flatten_cons, ← List.append_assoc]
    rw [processBuffer_append (buf ++ c) cs.flatten]

/-- The interceptor's output depends only on the concatenation of the
chunks it was fed. -/
theorem intercept_eq_processBuffer_join (cs : List (List Nat)) :
    intercept cs = (processBuffer cs.flatten).1 := by
  unfold intercept
  rw [runChunks_eq_processBuffer cs [] rfl]
  rw [List.nil_append]

/-! ## Processing well-formed frames -/

theorem encodeFrame_length (f : Frame) :
    (encodeFrame f).length = f.header.length + 4 + f.body.length := by
  unfold encodeFrame
  simp only [List.length_append, DELIM_length]

theorem processBuffer_frame (f : Frame) (r : List Nat) (hf : WF f) :
    processBuffer (encodeFrame f ++ r) =
      (emitFrame f ++ (processBuffer r).1, (processBuffer r).2) := by
  obtain ⟨_, hcl, hde⟩ := hf
  have hs : encodeFrame f ++ r = (f.header ++ DELIM) ++ (f.body ++ r) := by
    unfold encodeFrame
    simp only [List.append_assoc]
  have hcl2 : findCL (encodeFrame f ++ r) = some f.body.length := by
    rw [hs]
    exact findCL_append _ hcl
  have hde2 : firstIdxOf DELIM (encodeFrame f ++ r) = some f.header.length := by
    rw [hs]
    exact firstIdxOf_append _ hde
  have hlen : (encodeFrame f ++ r).length = f.header.length + 4 + f.body.length + r.length := by
    rw [List.length_append, encodeFrame_length]
  have hshort : ¬ (encodeFrame f ++ r).length < f.header.length + 4 + f.body.length := by
    rw [hlen]
    omega
  rw [processBuffer_step hcl2 hde2 hshort]
  have hBL : (f.header ++ DELIM).length = f.header.length + 4 := by
    simp only [List.length_append, DELIM_length]
  have hbody : ((encodeFrame f ++ r).drop (f.header.length + 4)).take f.body.length = f.body := by
    rw [hs, ← hBL, List.drop_left]
    exact List.take_left f.body r
  have htake : (encodeFrame f ++ r).take f.header.length = f.header := by
    rw [hs, take_append_of_le (by rw [hBL]; omega),
      take_append_of_le (Nat.le_refl _), List.take_length]
  have htake2 : (encodeFrame f ++ r).take (f.header.length + 4 + f.body.length) = encodeFrame f := by
    rw [← encodeFrame_length f]
    exact List.take_left _ r
  have hdrop : (encodeFrame f ++ r).drop (f.header.length + 4 + f.body.length) = r := by
    rw [← encodeFrame_length f]
    exact List.drop_left _ r
  rw [hbody, htake, htake2, hdrop]
  rfl

theorem processBuffer_stream : ∀ (fs : List Frame), (∀ f ∈ fs, WF f) →
    processBuffer (fs.map encodeFrame).flatten = ((fs.map emitFrame).flatten, []) := by
  intro fs
  induction fs with
  | nil => intro _; rfl
  | cons f fs ih =>
    intro h
    rw [List.map_cons, List.flatten_cons, List.map_cons, List.flatten_cons]
    rw [processBuffer_frame f _ (h f (List.mem_cons_self f fs))]
    rw [ih (fun g hg => h g (List.mem_cons_of_mem f hg))]

/-! ## Claim C1: chunk-boundary invariance -/

/-- C1: for every sequence of well-formed frames and every chunk-splitting of
its byte stream, the interceptor emits exactly the same bytes as processing
the entire stream as a single chunk, namely the per-frame outputs
concatenated in input order. -/
theorem chunk_boundary_invariance (fs : List Frame) (hfs : ∀ f ∈ fs, WF f)
    (chunks : List (List Nat)) (hc : chunks.flatten = (fs.map encodeFrame).flatten) :
    intercept chunks = intercept [(fs.map encodeFrame).flatten] ∧
    intercept chunks = (fs.map emitFrame).flatten := by
  have h1 : intercept chunks = (processBuffer (fs.map encodeFrame).flatten).1 := by
    rw [intercept_eq_processBuffer_join, hc]
  have h2 : intercept [(fs.map encodeFrame).flatten] =
      (processBuffer (fs.map encodeFrame).flatten).1 := by
    rw [intercept_eq_processBuffer_join]
    rw [show ([(fs.map encodeFrame).flatten]).flatten = (fs.map encodeFrame).flatten by
      simp]
  refine ⟨h1.trans h2.symm, h1.trans ?_⟩
  rw [processBuffer_stream fs hfs]

/-- A well-formed frame whose body is the sentinel pattern itself. -/
def frameA : Frame := ⟨toBytes "Content-Length: 24", TARGET⟩

theorem chunk_boundary_invariance_witness :
    (∀ f ∈ [frameA], WF f) ∧
    ([(encodeFrame frameA).take 10, (encodeFrame frameA).drop 10]).flatten =
      ([frameA].map encodeFrame).flatten ∧
    intercept [(encodeFrame frameA).take 10, (encodeFrame frameA).drop 10] =
      ([frameA].map emitFrame).flatten := by
  have hwf : ∀ f ∈ [frameA], WF f := by
    intro f hf
    rw [List.mem_singleton] at hf
    subst hf
    exact ⟨by decide, rfl, rfl⟩
  have hc : ([(encodeFrame frameA).take 10, (encodeFrame frameA).drop 10]).flatten =
      ([frameA].map encodeFrame).flatten := by decide
  exact ⟨hwf, hc, (chunk_boundary_invariance [frameA] hwf
    [(encodeFrame frameA).take 10, (encodeFrame frameA).drop 10] hc).2⟩

/-! ## Claim C3: byte-for-byte passthrough without the rewrite target -/

/-- C3: a complete well-formed frame whose body does not contain the
sentinel is emitted byte-for-byte unchanged (header, delimiter and body
included), and the whole frame is consumed; in particular a frame with a
zero-length body (see the witness) is processed, not held as incomplete. -/
theorem passthrough_no_target (f : Frame) (hwf : WF f)
    (hnt : containsB TARGET f.body = false) :
    processBuffer (encodeFrame f) = (encodeFrame f, []) := by
  have hstep := processBuffer_frame f [] hwf
  rw [List.append_nil] at hstep
  rw [hstep, show processBuffer ([] : List Nat) = (([] : List Nat), ([] : List Nat)) from rfl]
  unfold emitFrame
  rw [if_neg (by rw [hnt]; intro h; cases h), List.append_nil]

/-- The zero-length-body frame used as the C3 witness. -/
def frameZ : Frame := ⟨toBytes "Content-Length: 0", []⟩

theorem passthrough_no_target_witness :
    WF frameZ ∧ containsB TARGET frameZ.body = false ∧
    processBuffer (encodeFrame frameZ) = (encodeFrame frameZ, []) :=
  ⟨⟨by decide, rfl, rfl⟩, rfl, passthrough_no_target frameZ ⟨by decide, rfl, rfl⟩ rfl⟩

/-! ## Claim C7: malformed or missing header blocks without discarding -/

/-- C7: whenever the buffered bytes lack a Content-Length match or lack the
blank-line delimiter, the interceptor emits nothing and keeps the buffer
intact, waiting for more input; processing is a total function, so a
malformed header never raises an error by itself. -/
theorem malformed_header_waits (b : List Nat)
    (h : findCL b = none ∨ firstIdxOf DELIM b = none) :
    processBuffer b = ([], b) := by
  cases h with
  | inl h => exact processBuffer_stuck_noCL h
  | inr h =>
    cases hcl : findCL b with
    | none => exact processBuffer_stuck_noCL hcl
    | some n => exact processBuffer_stuck_noDelim hcl h

theorem malformed_header_waits_witness :
    (findCL (toBytes "Content-Length: 5\r\nX") = none ∨
      firstIdxOf DELIM (toBytes "Content-Length: 5\r\nX") = none) ∧
    processBuffer (toBytes "Content-Length: 5\r\nX") =
      ([], toBytes "Content-Length: 5\r\nX") :=
  ⟨Or.inr rfl, malformed_header_waits _ (Or.inr rfl)⟩

/-! ## The header rewrite: loose Content-Length matches -/

theorem takeDigits_of_all {l : List Nat} (h : ∀ d ∈ l, isDigit d = true) :
    takeDigits l = l := by
  induction l with
  | nil => rfl
  | cons c cs ih =>
    rw [takeDigits, if_pos (h c (List.mem_cons_self c cs))]
    rw [ih (fun d hd => h d (List.mem_cons_of_mem c hd))]

theorem firstLoosePos_cons_zero {c : Nat} {cs : List Nat}
    (h : firstLoosePos (c :: cs) = some 0) : clLooseHead (c :: cs) = true := by
  by_cases hc : clLooseHead (c :: cs) = true
  · exact hc
  · rw [firstLoosePos, if_neg hc] at h
    cases hj : firstLoosePos cs with
    | none => rw [hj] at h; cases h
    | some j =>
      rw [hj] at h
      injection h with h
      cases h

theorem firstLoosePos_cons_succ {c : Nat} {cs : List Nat} {q : Nat}
    (h : firstLoosePos (c :: cs) = some (q + 1)) :
    clLooseHead (c :: cs) = false ∧ firstLoosePos cs = some q := by
  by_cases hc : clLooseHead (c :: cs) = true
  · rw [firstLoosePos, if_pos hc] at h
    injection h with h
    cases h
  · rw [firstLoosePos, if_neg hc] at h
    cases hj : firstLoosePos cs with
    | none => rw [hj] at h; cases h
    | some j =>
      rw [hj] at h
      injection h with h
      have h' : j + 1 = q + 1 := h
      have hjq : j = q := by omega
      subst hjq
      exact ⟨Bool.eq_false_iff.mpr hc, rfl⟩

theorem firstLoosePos_min {l : List Nat} {p : Nat} (h : firstLoosePos l = some p) :
    ∀ q, q < p → clLooseHead (l.drop q) = false := by
  induction l generalizing p with
  | nil => simp [firstLoosePos] at h
  | cons c cs ih =>
    intro q hq
    cases p with
    | zero => omega
    | succ p' =>
      obtain ⟨h0, hrec⟩ := firstLoosePos_cons_succ h
      cases q with
      | zero => rw [List.drop_zero]; exact h0
      | succ q' =>
        rw [List.drop_succ_cons]
        exact ih hrec q' (by omega)

theorem firstLoosePos_spec {l : List Nat} {p : Nat} (h : firstLoosePos l = some p) :
    clLooseHead (l.drop p) = true := by
  induction l generalizing p with
  | nil => simp [firstLoosePos] at h
  | cons c cs ih =>
    cases p with
    | zero => rw [List.drop_zero]; exact firstLoosePos_cons_zero h
    | succ p' =>
      rw [List.drop_succ_cons]
      exact ih (firstLoosePos_cons_succ h).2

/-- clLooseHead reads at most the first 17 bytes of the buffer. -/
theorem clLooseHead_extend {s : List Nat} (w : List Nat) (hs : 17 ≤ s.length) :
    clLooseHead (s ++ w) = clLooseHead s := by
  have hpre : CLlit.isPrefixOf (s ++ w) = CLlit.isPrefixOf s := by
    by_cases hp : CLlit.isPrefixOf s = true
    · rw [hp, isPrefixOf_append_of w hp]
    · rw [Bool.eq_false_iff.mpr hp]
      by_cases hq : CLlit.isPrefixOf (s ++ w) = true
      · exact absurd (isPrefixOf_restrict hq (by rw [CLlit_length]; omega)) hp
      · rw [Bool.eq_false_iff.mpr hq]
  have hdrop : (s ++ w).drop 16 = s.drop 16 ++ w := drop_append_of_le (by omega)
  unfold clLooseHead
  rw [hpre, hdrop]
  cases hd : s.drop 16 with
  | nil =>
    have := congrArg List.length hd
    rw [List.length_drop] at this
    simp at this
    omega
  | cons d t => rfl

theorem clLooseHead_of_clMatchAt {l : List Nat} {n : Nat} (h : clMatchAt l = some n) :
    clLooseHead l = true := by
  rw [clMatchAt_eq_some_iff] at h
  obtain ⟨ds, rest, rfl, hdne, hdig, _⟩ := h
  obtain ⟨d, ds', rfl⟩ := List.exists_cons_of_ne_nil hdne
  unfold clLooseHead
  rw [isPrefixOf_append_self]
  have hdrop : (CLlit ++ ((d :: ds') ++ (CRLF ++ rest))).drop 16 = (d :: ds') ++ (CRLF ++ rest) := by
    have := List.drop_left CLlit ((d :: ds') ++ (CRLF ++ rest))
    rw [CLlit_length] at this
    exact this
  rw [hdrop]
  simp only [List.cons_append, Bool.true_and]
  exact hdig d (List.mem_cons_self d ds')

/-- replaceFirstCL walks past the positions before the first loose match
untouched. -/
theorem replaceFirstCL_of_firstLoosePos :
    ∀ (u t : List Nat) (n : Nat), firstLoosePos (u ++ t) = some u.length →
      replaceFirstCL n (u ++ t) = u ++ replaceFirstCL n t ∧ clLooseHead t = true := by
  intro u
  induction u with
  | nil =>
    intro t n h
    rw [List.nil_append] at h ⊢
    refine ⟨rfl, ?_⟩
    exact firstLoosePos_spec h
  | cons c u' ih =>
    intro t n h
    rw [List.cons_append] at h
    have hlen : (c :: u').length = u'.length + 1 := rfl
    rw [hlen] at h
    obtain ⟨h0, hrec⟩ := firstLoosePos_cons_succ h
    obtain ⟨ha, hb⟩ := ih t n hrec
    refine ⟨?_, hb⟩
    rw [List.cons_append, replaceFirstCL, if_neg (by rw [h0]; intro hc; cases hc)]
    rw [ha]
    rfl

theorem clLooseHead_nil : clLooseHead [] = false := by decide

theorem replaceFirstCL_hit {l : List Nat} (hl : clLooseHead l = true) (n : Nat) :
    replaceFirstCL n l =
      CLlit ++ natDigits n ++ l.drop (16 + (takeDigits (l.drop 16)).length) := by
  cases l with
  | nil => rw [clLooseHead_nil] at hl; cases hl
  | cons c cs => rw [replaceFirstCL, if_pos hl]

theorem takeDigits_ds_rest {ds rest : List Nat} (hdig : ∀ d ∈ ds, isDigit d = true)
    (hcr : CRLF.isPrefixOf (rest ++ DELIM) = true) :
    takeDigits (ds ++ rest) = ds := by
  cases rest with
  | nil =>
    rw [List.append_nil]
    exact takeDigits_of_all hdig
  | cons x r' =>
    have hh : some x = some 13 := by
      have h2 := congrArg List.head? (eq_append_drop_of_isPrefixOf hcr)
      exact h2
    injection hh with hh
    subst hh
    exact takeDigits_of_digits_stop r' hdig (by decide)

/-- A header whose first loose Content-Length occurrence is a genuine
length declaration: at the leftmost position where the literal is followed
by a digit, the digit run is terminated by CRLF (possibly the CRLF of the
header/body delimiter when Content-Length is the final header field). -/
def GoodHeader (h : List Nat) : Prop :=
  ∃ u ds rest, h = u ++ (CLlit ++ (ds ++ rest)) ∧ ds ≠ [] ∧
    (∀ d ∈ ds, isDigit d = true) ∧ CRLF.isPrefixOf (rest ++ DELIM) = true ∧
    firstLoosePos h = some u.length

theorem replaceFirstCL_of_good {u ds rest : List Nat} (n : Nat)
    (_hdne : ds ≠ []) (hdig : ∀ d ∈ ds, isDigit d = true)
    (hcr : CRLF.isPrefixOf (rest ++ DELIM) = true)
    (hfl : firstLoosePos (u ++ (CLlit ++ (ds ++ rest))) = some u.length) :
    replaceFirstCL n (u ++ (CLlit ++ (ds ++ rest))) =
      u ++ (CLlit ++ natDigits n ++ rest) := by
  obtain ⟨hrw, hlh⟩ := replaceFirstCL_of_firstLoosePos u (CLlit ++ (ds ++ rest)) n hfl
  rw [hrw, replaceFirstCL_hit hlh]
  have hdrop16 : (CLlit ++ (ds ++ rest)).drop 16 = ds ++ rest := by
    have := List.drop_left CLlit (ds ++ rest)
    rw [CLlit_length] at this
    exact this
  rw [hdrop16, takeDigits_ds_rest hdig hcr]
  have hdr : (CLlit ++ (ds ++ rest)).drop (16 + ds.length) = rest := by
    rw [List.drop_append_eq_append_drop]
    rw [show CLlit.drop (16 + ds.length) = [] from by
      rw [List.drop_eq_nil_iff, CLlit_length]; omega]
    rw [List.nil_append, show 16 + ds.length - CLlit.length = ds.length from by
      rw [CLlit_length]; omega]
    exact List.drop_left ds rest
  rw [hdr]

/-- The reframed header declares exactly the number written into it:
reading the emitted header with the framing regex yields the recomputed
length. -/
theorem findCL_replaceFirstCL_of_good {h : List Nat} (hg : GoodHeader h) (n : Nat) :
    findCL (replaceFirstCL n h ++ DELIM) = some n := by
  obtain ⟨u, ds, rest, rfl, hdne, hdig, hcr, hfl⟩ := hg
  rw [replaceFirstCL_of_good n hdne hdig hcr hfl]
  have hT : (u ++ (CLlit ++ natDigits n ++ rest)) ++ DELIM =
      u ++ (CLlit ++ (natDigits n ++ (rest ++ DELIM))) := by
    simp only [List.append_assoc]
  rw [hT]
  have hcrsplit : rest ++ DELIM = CRLF ++ (rest ++ DELIM).drop 2 := by
    have := eq_append_drop_of_isPrefixOf hcr
    rw [CRLF_length] at this
    exact this
  refine findCL_eq_some_of (p := u.length) ?_ ?_
  · rw [List.drop_left]
    rw [clMatchAt_eq_some_iff]
    refine ⟨natDigits n, (rest ++ DELIM).drop 2, ?_, natDigits_ne_nil n,
      natDigits_digits n, parseDigits_natDigits n⟩
    rw [← hcrsplit]
  · intro q hq
    cases hmm : clMatchAt ((u ++ (CLlit ++ (natDigits n ++ (rest ++ DELIM)))).drop q) with
    | none => rfl
    | some m =>
      exfalso
      have hlh := clLooseHead_of_clMatchAt hmm
      have hsplit : (u ++ (CLlit ++ (natDigits n ++ (rest ++ DELIM)))).drop q =
          (u.drop q ++ CLlit) ++ (natDigits n ++ (rest ++ DELIM)) := by
        rw [drop_append_of_le (by omega)]
        simp only [List.append_assoc]
      have hslen : 17 ≤ (u.drop q ++ CLlit).length := by
        rw [List.length_append, List.length_drop, CLlit_length]
        omega
      rw [hsplit, clLooseHead_extend _ hslen] at hlh
      have hold : (u ++ (CLlit ++ (ds ++ rest))).drop q =
          (u.drop q ++ CLlit) ++ (ds ++ rest) := by
        rw [drop_append_of_le (by omega)]
        simp only [List.append_assoc]
      have hmin := firstLoosePos_min hfl q hq
      rw [hold, clLooseHead_extend _ hslen] at hmin
      rw [hmin] at hlh
      cases hlh

/-! ## The rewrite strictly shortens the body -/

theorem containsB_cons {pat : List Nat} {c : Nat} {cs : List Nat}
    (h : containsB pat (c :: cs) = true) :
    pat.isPrefixOf (c :: cs) = true ∨ containsB pat cs = true := by
  unfold containsB at h ⊢
  rw [firstIdxOf] at h
  by_cases hp : pat.isPrefixOf (c :: cs) = true
  · exact Or.inl hp
  · rw [if_neg hp] at h
    right
    cases hj : firstIdxOf pat cs with
    | none => rw [hj] at h; cases h
    | some j => rfl

theorem replaceAllF_length_le : ∀ (fuel : Nat) (l : List Nat),
    (replaceAllF TARGET REPL fuel l).length ≤ l.length := by
  intro fuel
  induction fuel with
  | zero =>
    intro l
    cases l with
    | nil => exact Nat.le_refl _
    | cons c cs => exact Nat.le_refl _
  | succ f ih =>
    intro l
    cases l with
    | nil => exact Nat.le_refl _
    | cons c cs =>
      rw [replaceAllF]
      by_cases hp : TARGET ≠ [] ∧ TARGET.isPrefixOf (c :: cs) = true
      · rw [if_pos hp]
        have hT : TARGET.length = 24 := rfl
        have hR : REPL.length = 23 := rfl
        have hlen : 24 ≤ cs.length + 1 := by
          have h2 := isPrefixOf_length_le hp.2
          rw [hT] at h2
          simpa using h2
        have hrec := ih (List.drop TARGET.length (c :: cs))
        simp only [hT, hR, List.length_drop, List.length_append, List.length_cons] at hrec ⊢
        omega
      · rw [if_neg hp]
        have := ih cs
        simp only [List.length_cons]
        omega

theorem replaceAllF_length_lt : ∀ (fuel : Nat) (l : List Nat), l.length ≤ fuel →
    containsB TARGET l = true → (replaceAllF TARGET REPL fuel l).length < l.length := by
  intro fuel
  induction fuel with
  | zero =>
    intro l h hc
    have hl : l = [] := List.eq_nil_of_length_eq_zero (Nat.le_zero.mp h)
    subst hl
    cases hc
  | succ f ih =>
    intro l h hc
    cases l with
    | nil => cases hc
    | cons c cs =>
      rw [replaceAllF]
      by_cases hp : TARGET ≠ [] ∧ TARGET.isPrefixOf (c :: cs) = true
      · rw [if_pos hp]
        have hT : TARGET.length = 24 := rfl
        have hR : REPL.length = 23 := rfl
        have hlen : 24 ≤ cs.length + 1 := by
          have h2 := isPrefixOf_length_le hp.2
          rw [hT] at h2
          simpa using h2
        have hrec := replaceAllF_length_le f (List.drop TARGET.length (c :: cs))
        simp only [hT, hR, List.length_drop, List.length_append, List.length_cons] at hrec ⊢
        omega
      · rw [if_neg hp]
        have hccs : containsB TARGET cs = true := by
          rcases containsB_cons hc with h1 | h1
          · exact absurd ⟨by decide, h1⟩ hp
          · exact h1
        have := ih cs (by simp only [List.length_cons] at h; omega) hccs
        simp only [List.length_cons]
        omega

theorem rewriteBody_length_lt {body : List Nat} (h : containsB TARGET body = true) :
    (rewriteBody body).length < body.length :=
  replaceAllF_length_lt body.length body (Nat.le_refl _) h

/-- Shared helper: what the interceptor emits for a complete well-formed
frame whose body holds the sentinel. -/
theorem processBuffer_rewrite (f : Frame) (hwf : WF f)
    (ht : containsB TARGET f.body = true) :
    processBuffer (encodeFrame f) =
      (replaceFirstCL (rewriteBody f.body).length f.header ++ DELIM ++
        rewriteBody f.body, []) := by
  have hstep := processBuffer_frame f [] hwf
  rw [List.append_nil] at hstep
  rw [hstep, show processBuffer ([] : List Nat) = (([] : List Nat), ([] : List Nat)) from rfl]
  unfold emitFrame
  rw [if_pos ht, List.append_nil]

/-! ## Claim C2: recomputed declared length (corrected) -/

/-- The adversarial frame refuting C2 as stated: the header's first
occurrence of the Content-Length text followed by digits (inside the X
field) is not the real length declaration, so the header rewrite regex
(which does not require a following CRLF) retargets the wrong digits. -/
def frameBad : Frame := ⟨toBytes "X: Content-Length: 7q\r\nContent-Length: 24", TARGET⟩

/-- C2 counterexample: frameBad is a complete well-formed frame whose body
contains the sentinel; the interceptor rewrites it, the rewritten body is
23 bytes, yet the emitted header still declares 24 — the declared
Content-Length does not equal the rewritten body's byte length. -/
theorem rewrite_declared_length_cex :
    WF frameBad ∧ containsB TARGET frameBad.body = true ∧
    processBuffer (encodeFrame frameBad) =
      (replaceFirstCL (rewriteBody frameBad.body).length frameBad.header ++ DELIM ++
        rewriteBody frameBad.body, []) ∧
    (rewriteBody frameBad.body).length = 23 ∧
    findCL (replaceFirstCL (rewriteBody frameBad.body).length frameBad.header ++ DELIM) =
      some 24 ∧
    findCL (replaceFirstCL (rewriteBody frameBad.body).length frameBad.header ++ DELIM) ≠
      some (rewriteBody frameBad.body).length :=
  ⟨⟨by decide, rfl, rfl⟩, rfl, rfl, rfl, rfl, by decide⟩

/-- C2 amended: for a complete well-formed frame whose body contains the
sentinel and whose header's first loose Content-Length occurrence is the
genuine length declaration, the interceptor emits the globally rewritten
body behind a header whose declared Content-Length equals the rewritten
body's exact byte length — and the rewrite really changes that byte
length. -/
theorem rewrite_declared_length_amended (f : Frame) (hwf : WF f)
    (ht : containsB TARGET f.body = true) (hg : GoodHeader f.header) :
    processBuffer (encodeFrame f) =
      (replaceFirstCL (rewriteBody f.body).length f.header ++ DELIM ++
        rewriteBody f.body, []) ∧
    findCL (replaceFirstCL (rewriteBody f.body).length f.header ++ DELIM) =
      some (rewriteBody f.body).length ∧
    (rewriteBody f.body).length < f.body.length :=
  ⟨processBuffer_rewrite f hwf ht, findCL_replaceFirstCL_of_good hg _,
    rewriteBody_length_lt ht⟩

theorem rewrite_declared_length_amended_witness :
    WF frameA ∧ containsB TARGET frameA.body = true ∧ GoodHeader frameA.header ∧
    findCL (replaceFirstCL (rewriteBody frameA.body).length frameA.header ++ DELIM) =
      some (rewriteBody frameA.body).length := by
  have hwf : WF frameA := ⟨by decide, rfl, rfl⟩
  have hg : GoodHeader frameA.header :=
    ⟨[], toBytes "24", [], by decide, by decide, by decide, by decide, by decide⟩
  exact ⟨hwf, rfl, hg, (rewrite_declared_length_amended frameA hwf rfl hg).2.1⟩

/-! ## Claim C10: the header rewrite touches only the first digit run -/

theorem replaceFirstCL_take_drop {h : List Nat} {p : Nat}
    (hp : firstLoosePos h = some p) (n : Nat) :
    replaceFirstCL n h =
      h.take (p + 16) ++ natDigits n ++
        h.drop (p + 16 + (takeDigits (h.drop (p + 16))).length) ∧
    h.take (p + 16) = h.take p ++ CLlit := by
  induction h generalizing p with
  | nil => simp [firstLoosePos] at hp
  | cons c cs ih =>
    cases p with
    | zero =>
      have hl := firstLoosePos_cons_zero hp
      have hpre : CLlit.isPrefixOf (c :: cs) = true := by
        unfold clLooseHead at hl
        exact (Bool.and_eq_true _ _ |>.mp hl).1
      have htk : (c :: cs).take 16 = CLlit := by
        have := List.prefix_iff_eq_take.mp (List.isPrefixOf_iff_prefix.mp hpre)
        rw [CLlit_length] at this
        exact this.symm
      constructor
      · rw [replaceFirstCL_hit hl n]
        simp only [Nat.zero_add]
        rw [htk]
      · simp only [Nat.zero_add, List.take_zero, List.nil_append]
        exact htk
    | succ q =>
      obtain ⟨h0, hrec⟩ := firstLoosePos_cons_succ hp
      obtain ⟨ih1, ih2⟩ := ih hrec
      have e1 : q + 1 + 16 = (q + 16) + 1 := by omega
      have e2 : ∀ k : Nat, q + 1 + 16 + k = (q + 16 + k) + 1 := by omega
      constructor
      · rw [replaceFirstCL, if_neg (by rw [h0]; intro hc; cases hc)]
        rw [e1, List.take_succ_cons, List.drop_succ_cons,
          e2 ((takeDigits (cs.drop (q + 16))).length), List.drop_succ_cons]
        rw [ih1]
        rfl
      · rw [e1, List.take_succ_cons, List.take_succ_cons, ih2]
        rfl

/-- C10: when the interceptor rewrites a frame, the emitted header equals
the received header with only the digits of the first Content-Length
occurrence's value replaced by the recomputed length: the bytes before the
occurrence, the literal itself, the bytes after the digit run and the
blank-line delimiter are re-emitted exactly as received. -/
theorem rewrite_preserves_header_bytes (f : Frame) (hwf : WF f)
    (ht : containsB TARGET f.body = true) (p : Nat)
    (hp : firstLoosePos f.header = some p) :
    processBuffer (encodeFrame f) =
      (replaceFirstCL (rewriteBody f.body).length f.header ++ DELIM ++
        rewriteBody f.body, []) ∧
    replaceFirstCL (rewriteBody f.body).length f.header =
      f.header.take (p + 16) ++ natDigits (rewriteBody f.body).length ++
        f.header.drop (p + 16 + (takeDigits (f.header.drop (p + 16))).length) ∧
    f.header.take (p + 16) = f.header.take p ++ CLlit :=
  ⟨processBuffer_rewrite f hwf ht,
    (replaceFirstCL_take_drop hp (rewriteBody f.body).length).1,
    (replaceFirstCL_take_drop hp (rewriteBody f.body).length).2⟩

theorem rewrite_preserves_header_bytes_witness :
    WF frameA ∧ containsB TARGET frameA.body = true ∧
    firstLoosePos frameA.header = some 0 ∧
    replaceFirstCL (rewriteBody frameA.body).length frameA.header =
      frameA.header.take 16 ++ natDigits (rewriteBody frameA.body).length ++
        frameA.header.drop
          (16 + (takeDigits (frameA.header.drop 16)).length) := by
  have hwf : WF frameA := ⟨by decide, rfl, rfl⟩
  have h := (rewrite_preserves_header_bytes frameA hwf rfl 0 rfl).2.1
  simp only [Nat.zero_add] at h
  exact ⟨hwf, rfl, rfl, h⟩

/-! ## Port Prober (isPortOpen)

isPortOpen opens a socket with a timeout and installs three handlers:
connect resolves true, error resolves false, timeout resolves false, each
destroying the socket first.  The shallow embedding abstracts the
asynchronous socket by the event that fires first; real elapsed time is
outside the model, but every possible event leads to a resolution, which is
how the code avoids hanging (the timeout event exists because
socket.setTimeout is armed before connecting). -/

/-- The socket event that fires first during a probe. -/
inductive SocketEvent
  | connect
  | error
  | timeout
  deriving DecidableEq

/-- isPortOpen's handlers: the resolved boolean and whether socket.destroy()
ran before resolving. -/
def isPortOpen : SocketEvent → Bool × Bool
  | .connect => (true, true)
  | .error => (false, true)
  | .timeout => (false, true)

/-- The default probe timeout of isPortOpen, in time-units. -/
def isPortOpenDefaultTimeout : Nat := 1000

/-- C8: for every possible socket event the prober resolves to a boolean
(it is a total function — it never throws), the socket is destroyed before
resolving regardless of outcome, the result is true exactly when the
connection completed first, and for a closed port (where the first event is
an error or the armed timeout, never a connect) the result is false. -/
theorem port_prober_resolves (e : SocketEvent) :
    (isPortOpen e).2 = true ∧
    ((isPortOpen e).1 = true ↔ e = SocketEvent.connect) ∧
    (e ≠ SocketEvent.connect → (isPortOpen e).1 = false) := by
  cases e <;> refine ⟨rfl, ?_, ?_⟩ <;> simp [isPortOpen]

theorem port_prober_resolves_witness :
    (isPortOpen SocketEvent.error).2 = true ∧ (isPortOpen SocketEvent.error).1 = false :=
  ⟨(port_prober_resolves SocketEvent.error).1,
    (port_prober_resolves SocketEvent.error).2.2 (by intro h; cases h)⟩

/-! ## Readiness Poller (the wait loop of launchGodotEditor) -/

/-- The readiness loop of launchGodotEditor: up to the remaining number of
attempts, each iteration awaits one fixed interval, probes once (the oracle
gives the k-th probe's result, 1-indexed), returns immediately on success,
and after every 10th failed attempt emits a progress signal, exactly as the
(i + 1) % 10 check in the source.  Returns (success, probes performed,
attempts after which a progress signal was emitted). -/
def pollAux (probe : Nat → Bool) : Nat → Nat → Bool × Nat × List Nat
  | 0, i => (false, i, [])
  | rem + 1, i =>
    if probe (i + 1) then (true, i + 1, [])
    else
      let r := pollAux probe rem (i + 1)
      (r.1, r.2.1, (if (i + 1) % 10 = 0 then [i + 1] else []) ++ r.2.2)

/-- The poller with a given bound of attempts, starting at attempt 0. -/
def poll (probe : Nat → Bool) (bound : Nat) : Bool × Nat × List Nat :=
  pollAux probe bound 0

/-- The loop bound in launchGodotEditor: 60 iterations. -/
def pollBound : Nat := 60

/-- The fixed interval between poll attempts, in time-units. -/
def pollInterval : Nat := 500

/-- Total waiting time after a number of attempts: one interval is awaited
before every probe. -/
def pollElapsed (attempts : Nat) : Nat := pollInterval * attempts

theorem pollAux_first_success (probe : Nat → Bool) :
    ∀ (rem i k : Nat), i < k → k ≤ i + rem →
      (∀ j, i < j → j < k → probe j = false) → probe k = true →
      pollAux probe rem i =
        (true, k, (List.range' (i + 1) (k - 1 - i)).filter (fun j => j % 10 = 0)) := by
  intro rem
  induction rem with
  | zero => intro i k h1 h2 _ _; omega
  | succ rem ih =>
    intro i k h1 h2 hf hk
    rw [pollAux]
    by_cases hik : i + 1 = k
    · rw [if_pos (by rw [hik]; exact hk)]
      have : k - 1 - i = 0 := by omega
      rw [this, hik]
      rfl
    · have hpi : probe (i + 1) = false := hf (i + 1) (by omega) (by omega)
      rw [if_neg (by rw [hpi]; intro hc; cases hc)]
      rw [ih (i + 1) k (by omega) (by omega) (fun j hj1 hj2 => hf j (by omega) hj2) hk]
      have hsz : k - 1 - i = (k - 1 - (i + 1)) + 1 := by omega
      rw [hsz, List.range'_succ, List.filter_cons]
      by_cases h10 : (i + 1) % 10 = 0
      · rw [if_pos h10, if_pos (by simpa using h10)]
        rfl
      · rw [if_neg h10, if_neg (by simpa using h10)]
        rfl

/-- C9: against the bound of 60 fixed 500-time-unit intervals (30 seconds of
total wait when exhausted, within the spec's 20 to 30 second default), if
the port first becomes reachable on attempt k within the bound, the poller
succeeds after exactly k probe attempts — not earlier, not later — and the
progress signals emitted are exactly the failed attempts that are multiples
of 10. -/
theorem readiness_poller_exact_attempts (probe : Nat → Bool) (k : Nat)
    (h1 : 1 ≤ k) (h2 : k ≤ pollBound)
    (hbefore : ∀ j, 1 ≤ j → j < k → probe j = false) (hk : probe k = true) :
    poll probe pollBound =
      (true, k, (List.range' 1 (k - 1)).filter (fun j => j % 10 = 0)) ∧
    pollInterval = 500 ∧ pollElapsed k = 500 * k ∧ pollElapsed pollBound = 30000 := by
  refine ⟨?_, rfl, rfl, rfl⟩
  unfold poll pollBound
  have h := pollAux_first_success probe 60 0 k (by omega)
    (by unfold pollBound at h2; omega)
    (fun j hj1 hj2 => hbefore j (by omega) hj2) hk
  simpa using h

theorem readiness_poller_exact_attempts_witness :
    poll (fun j => j == 5) pollBound =
      (true, 5, (List.range' 1 4).filter (fun j => j % 10 = 0)) :=
  (readiness_poller_exact_attempts (fun j => j == 5) 5 (by decide) (by decide)
    (by intro j hj1 hj2; interval_cases j <;> rfl) rfl).1

/-! ## Bridge Orchestrator (main) -/

/-- Events of a session that the lifecycle claims talk about.  log is a
write to the diagnostic channel during the cleanup sequence (the
console.error message printed before the kill attempt); the empty catch
block around the kill attempt produces no event of any kind. -/
inductive Ev
  | spawn
  | log
  | kill (ok : Bool)
  | sockEnd
  | exit (code : Nat)
  deriving DecidableEq

/-- Is an event a diagnostic-channel write? -/
def isLog : Ev → Bool
  | Ev.log => true
  | _ => false

/-- How the proxy phase ends: the peer closes the socket, a socket error
fires, or a termination signal (SIGTERM/SIGINT) arrives. -/
inductive ProxyOutcome
  | peerClose
  | sockError
  | signal
  deriving DecidableEq

/-- The environment one session of main runs against. -/
structure Env where
  primaryOpen : Bool
  altOpen : Bool
  godotFound : Bool
  projectFound : Bool
  pollProbe : Nat → Bool
  outcome : ProxyOutcome

/-- The alternate-port heuristic of main: exactly the two well-known
default ports swap; any other configured port has no fallback. -/
def altPort (port : Nat) : Option Nat :=
  if port = 6005 then some 6008
  else if port = 6008 then some 6005
  else none

/-- The startup probe of main: check the configured endpoint and, only when
it is closed and the port is one of the two defaults, the alternate;
returns the adopted port when a server is already reachable. -/
def initialProbe (env : Env) (port : Nat) : Option Nat :=
  if env.primaryOpen then some port
  else
    match altPort port with
    | some p2 => if env.altOpen then some p2 else none
    | none => none

/-- launchGodotEditor: returns false before spawning when the executable or
the project file cannot be found; otherwise spawns the detached process
(recording it in spawnedGodotProcess) and polls readiness up to the bound.
Result: (success, whether a process was spawned). -/
def launchGodotEditor (env : Env) : Bool × Bool :=
  if env.godotFound = false then (false, false)
  else if env.projectFound = false then (false, false)
  else ((poll env.pollProbe pollBound).1, true)

/-- The cleanup handler installed on SIGTERM and SIGINT: end the socket;
if this session spawned a process, write the one unconditional diagnostic
message (Cleaning up background processes) and then attempt the kill —
the surrounding try has an empty catch, so a failed kill adds nothing to
the trace, in particular no diagnostic write — then exit 0. -/
def cleanup (spawned : Bool) (killOk : Bool) : List Ev :=
  Ev.sockEnd :: ((if spawned then [Ev.log, Ev.kill killOk] else []) ++ [Ev.exit 0])

/-- The proxy phase of main: the socket close handler exits 0, the error
handler exits 1, and a termination signal runs cleanup. -/
def proxyPhase (env : Env) (spawned : Bool) (killOk : Bool) : List Ev :=
  match env.outcome with
  | .peerClose => [Ev.exit 0]
  | .sockError => [Ev.exit 1]
  | .signal => cleanup spawned killOk

/-- One whole session of main as its event trace: probe for an existing
server, launch only when none is reachable, exit 1 when the launch fails
(before spawning on resolution errors, after spawning on a readiness
timeout), otherwise proxy until the outcome. -/
def bridgeMain (env : Env) (port : Nat) (killOk : Bool) : List Ev :=
  match initialProbe env port with
  | some _ => proxyPhase env false killOk
  | none =>
    match launchGodotEditor env with
    | (true, sp) => (if sp then [Ev.spawn] else []) ++ proxyPhase env sp killOk
    | (false, sp) => (if sp then [Ev.spawn] else []) ++ [Ev.exit 1]

/-- The session reached the proxy phase: a server was already reachable or
the launch succeeded. -/
def startupOk (env : Env) (port : Nat) : Prop :=
  initialProbe env port ≠ none ∨ (launchGodotEditor env).1 = true

/-- The last event of a trace is an exit with the given code. -/
def exitsWith (evs : List Ev) (c : Nat) : Prop := evs.getLast? = some (Ev.exit c)

theorem launch_success_spawned {env : Env} (h : (launchGodotEditor env).1 = true) :
    launchGodotEditor env = (true, true) := by
  unfold launchGodotEditor at h ⊢
  by_cases hg : env.godotFound = false
  · rw [if_pos hg] at h; cases h
  · rw [if_neg hg] at h ⊢
    by_cases hp : env.projectFound = false
    · rw [if_pos hp] at h; cases h
    · rw [if_neg hp] at h ⊢
      rw [h]

/-! ## Claim C4: signal-triggered cleanup terminates iff launched
(corrected: a termination failure is silently swallowed, not logged) -/

/-- The environment of the C4 counterexample and witness: no server
reachable, launch succeeds on the first readiness probe, then a
termination signal arrives. -/
def envLaunch : Env := ⟨false, false, true, true, fun j => j == 1, ProxyOutcome.signal⟩

/-- C4 counterexample: the claim says a failure to terminate is logged,
but in this session the kill attempt fails and the trace records no
diagnostic write about it — the only log is the unconditional message
printed before the attempt, the failed attempt is followed immediately by
the exit, and the diagnostic stream is byte-identical to the session where
the kill succeeds, because the catch block around the kill is empty. -/
theorem cleanup_failure_not_logged_cex :
    Ev.kill false ∈ bridgeMain envLaunch 6005 false ∧
    bridgeMain envLaunch 6005 false =
      [Ev.spawn, Ev.sockEnd, Ev.log, Ev.kill false, Ev.exit 0] ∧
    (bridgeMain envLaunch 6005 false).filter isLog =
      (bridgeMain envLaunch 6005 true).filter isLog :=
  ⟨by decide, by decide, by decide⟩

/-- C4 amended: when a termination signal ends a session that reached the
proxy phase, a session that spawned the server process attempts to kill
exactly that process once, right before the final exit (and nowhere
earlier); a session that never spawned a process attempts no termination
at all; and a failure to terminate is silently swallowed — the diagnostic
log stream is the same whether the kill succeeds or fails — and never
raised past the shutdown sequence: the session still exits with code 0. -/
theorem cleanup_kills_iff_spawned (env : Env) (port : Nat) (killOk : Bool)
    (hsig : env.outcome = ProxyOutcome.signal) (hup : startupOk env port) :
    (Ev.spawn ∈ bridgeMain env port killOk →
      ∃ pre, bridgeMain env port killOk = pre ++ [Ev.kill killOk, Ev.exit 0] ∧
        (∀ ok : Bool, Ev.kill ok ∉ pre)) ∧
    (Ev.spawn ∉ bridgeMain env port killOk →
      (∀ ok : Bool, Ev.kill ok ∉ bridgeMain env port killOk)) ∧
    exitsWith (bridgeMain env port killOk) 0 ∧
    (∀ ok1 ok2 : Bool,
      (bridgeMain env port ok1).filter isLog = (bridgeMain env port ok2).filter isLog) := by
  unfold bridgeMain
  cases hip : initialProbe env port with
  | some p =>
    dsimp only
    unfold proxyPhase
    rw [hsig]
    dsimp only
    unfold cleanup
    refine ⟨?_, ?_, rfl, ?_⟩
    · intro hmem
      simp at hmem
    · intro _ ok
      simp
    · intro ok1 ok2
      rfl
  | none =>
    dsimp only
    have hl : (launchGodotEditor env).1 = true := by
      cases hup with
      | inl h => exact absurd hip h
      | inr h => exact h
    rw [launch_success_spawned hl]
    dsimp only
    unfold proxyPhase
    rw [hsig]
    dsimp only
    unfold cleanup
    refine ⟨?_, ?_, rfl, ?_⟩
    · intro _
      refine ⟨[Ev.spawn, Ev.sockEnd, Ev.log], rfl, ?_⟩
      intro ok
      simp
    · intro hmem
      exact absurd (by simp : Ev.spawn ∈ _) hmem
    · intro ok1 ok2
      rfl

theorem cleanup_kills_iff_spawned_witness :
    Ev.spawn ∈ bridgeMain envLaunch 6005 false ∧
    (∃ pre, bridgeMain envLaunch 6005 false = pre ++ [Ev.kill false, Ev.exit 0] ∧
      (∀ ok : Bool, Ev.kill ok ∉ pre)) ∧
    (bridgeMain envLaunch 6005 false).filter isLog =
      (bridgeMain envLaunch 6005 true).filter isLog := by
  have hs : Ev.spawn ∈ bridgeMain envLaunch 6005 false := by decide
  have h := cleanup_kills_iff_spawned envLaunch 6005 false rfl (Or.inr rfl)
  exact ⟨hs, h.1 hs, h.2.2.2 false true⟩

/-! ## Claim C5: an already-reachable endpoint means no supervisor at all -/

/-- C5: when the configured endpoint (or its well-known fallback) is
already reachable at startup, the session never spawns a process, and no
kill is ever attempted — whatever ends the session, cleanup performs no
process termination. -/
theorem no_launch_when_reachable (env : Env) (port : Nat) (killOk : Bool) (p : Nat)
    (h : initialProbe env port = some p) :
    Ev.spawn ∉ bridgeMain env port killOk ∧
    (∀ ok : Bool, Ev.kill ok ∉ bridgeMain env port killOk) := by
  unfold bridgeMain
  rw [h]
  dsimp only
  cases ho : env.outcome <;> simp [proxyPhase, cleanup, ho]

/-- The environment of the C5 witness: the primary endpoint is already
reachable, a signal later ends the session. -/
def envReach : Env := ⟨true, false, false, false, fun _ => false, ProxyOutcome.signal⟩

theorem no_launch_when_reachable_witness :
    initialProbe envReach 6005 = some 6005 ∧
    Ev.spawn ∉ bridgeMain envReach 6005 true ∧
    Ev.kill true ∉ bridgeMain envReach 6005 true :=
  ⟨rfl, (no_launch_when_reachable envReach 6005 true 6005 rfl).1,
    (no_launch_when_reachable envReach 6005 true 6005 rfl).2 true⟩

/-! ## Claim C6: exit codes -/

/-- C6: the session exits 0 on a clean peer-initiated close and on a
signal-triggered shutdown; it exits non-zero when the executable is not
found, when the project is not found, when readiness polling times out, and
on a socket error; and the success or failure of the cleanup kill never
changes the exit code. -/
theorem exit_codes (env : Env) (port : Nat) (killOk : Bool) :
    (startupOk env port → env.outcome = ProxyOutcome.peerClose →
      exitsWith (bridgeMain env port killOk) 0) ∧
    (startupOk env port → env.outcome = ProxyOutcome.signal →
      exitsWith (bridgeMain env port killOk) 0) ∧
    (startupOk env port → env.outcome = ProxyOutcome.sockError →
      exitsWith (bridgeMain env port killOk) 1) ∧
    (initialProbe env port = none → env.godotFound = false →
      exitsWith (bridgeMain env port killOk) 1) ∧
    (initialProbe env port = none → env.projectFound = false →
      exitsWith (bridgeMain env port killOk) 1) ∧
    (initialProbe env port = none → env.godotFound = true → env.projectFound = true →
      (poll env.pollProbe pollBound).1 = false →
      exitsWith (bridgeMain env port killOk) 1) ∧
    (∀ ok1 ok2 : Bool, ∀ c : Nat,
      exitsWith (bridgeMain env port ok1) c ↔ exitsWith (bridgeMain env port ok2) c) := by
  have hproxy : ∀ (sp ok : Bool),
      (proxyPhase env sp ok).getLast? =
        some (Ev.exit (match env.outcome with
          | ProxyOutcome.sockError => 1
          | _ => 0)) := by
    intro sp ok
    cases ho : env.outcome <;> rw [proxyPhase, ho] <;> cases sp <;> rfl
  have hmain : ∀ ok : Bool,
      (bridgeMain env port ok).getLast? =
        match initialProbe env port with
        | some _ =>
          some (Ev.exit (match env.outcome with | ProxyOutcome.sockError => 1 | _ => 0))
        | none =>
          match launchGodotEditor env with
          | (true, sp) =>
            some (Ev.exit (match env.outcome with | ProxyOutcome.sockError => 1 | _ => 0))
          | (false, sp) => some (Ev.exit 1) := by
    intro ok
    unfold bridgeMain
    cases hip : initialProbe env port with
    | some p =>
      dsimp only
      exact hproxy false ok
    | none =>
      dsimp only
      rcases hlv : launchGodotEditor env with ⟨ls, sp⟩
      cases ls
      · dsimp only
        cases sp <;> rfl
      · dsimp only
        cases sp
        · rw [show ((if false then [Ev.spawn] else []) ++ proxyPhase env false ok) =
            proxyPhase env false ok from rfl]
          exact hproxy false ok
        · cases ho : env.outcome <;>
            simp only [proxyPhase, cleanup, ho] <;> rfl
  refine ⟨?_, ?_, ?_, ?_, ?_, ?_, ?_⟩
  · intro hup ho
    unfold exitsWith
    rw [hmain killOk]
    cases hip : initialProbe env port with
    | some p => rw [ho]
    | none =>
      have hl : (launchGodotEditor env).1 = true := by
        cases hup with
        | inl h => exact absurd hip h
        | inr h => exact h
      rw [launch_success_spawned hl, ho]
  · intro hup ho
    unfold exitsWith
    rw [hmain killOk]
    cases hip : initialProbe env port with
    | some p => rw [ho]
    | none =>
      have hl : (launchGodotEditor env).1 = true := by
        cases hup with
        | inl h => exact absurd hip h
        | inr h => exact h
      rw [launch_success_spawned hl, ho]
  · intro hup ho
    unfold exitsWith
    rw [hmain killOk]
    cases hip : initialProbe env port with
    | some p => rw [ho]
    | none =>
      have hl : (launchGodotEditor env).1 = true := by
        cases hup with
        | inl h => exact absurd hip h
        | inr h => exact h
      rw [launch_success_spawned hl, ho]
  · intro hip hg
    unfold exitsWith
    rw [hmain killOk, hip]
    rw [show launchGodotEditor env = (false, false) from by
      unfold launchGodotEditor; rw [if_pos hg]]
  · intro hip hp
    unfold exitsWith
    rw [hmain killOk, hip]
    by_cases hg : env.godotFound = false
    · rw [show launchGodotEditor env = (false, false) from by
        unfold launchGodotEditor; rw [if_pos hg]]
    · rw [show launchGodotEditor env = (false, false) from by
        unfold launchGodotEditor; rw [if_neg hg, if_pos hp]]
  · intro hip hg hp hpoll
    unfold exitsWith
    rw [hmain killOk, hip]
    rw [show launchGodotEditor env = (false, true) from by
      unfold launchGodotEditor
      rw [if_neg (by rw [hg]; intro hc; cases hc), if_neg (by rw [hp]; intro hc; cases hc),
        hpoll]]
  · intro ok1 ok2 c
    unfold exitsWith
    rw [hmain ok1, hmain ok2]

/-- The environment of the C6 witness for the clean-close case. -/
def envPeer : Env := ⟨true, false, false, false, fun _ => false, ProxyOutcome.peerClose⟩

/-- The environment of the C6 witness for the executable-not-found case. -/
def envNoGodot : Env := ⟨false, false, false, true, fun _ => false, ProxyOutcome.peerClose⟩

theorem exit_codes_witness :
    exitsWith (bridgeMain envPeer 6005 true) 0 ∧
    exitsWith (bridgeMain envNoGodot 6005 true) 1 :=
  ⟨(exit_codes envPeer 6005 true).1 (Or.inl (by decide)) rfl,
    (exit_codes envNoGodot 6005 true).2.2.2.1 rfl rfl⟩

end Bridge
